import Mathlib

/-!
Shallow embedding of the zenithds query engine (src/db.rs, src/types.rs)
and proofs about its scanning, parsing, partitioning and write-path logic.

CSV files are modelled as the stream of records the csv reader yields:
a `List (List String)`.  Filesystem interactions (directory listings,
per-file reads) are modelled as explicit `Except`-valued inputs, where
`.error ()` stands for the corresponding I/O failure.  Rust string
comparison (byte-wise lexicographic over UTF-8) coincides with
codepoint-lexicographic comparison, which is what the `charListLt`/
`charListLe` helpers implement over `String.data`.
-/

set_option maxRecDepth 10000

namespace zenithds

/-- Model of `types.rs` `ZenithError`.  The payloads of the I/O-backed
variants are irrelevant to the claims and are dropped. -/
inductive ZenithError where
  | FileSystemError : ZenithError
  | RegexError : ZenithError
  | CSVError : ZenithError
  | PredicateError (msg : String) : ZenithError
  | QueryError (msg : String) : ZenithError
deriving DecidableEq, Repr

/-- Model of `types.rs` `PredOp`. -/
inductive PredOp where
  | EQ | NE | LT | GT | LE | GE | CONTAINS
deriving DecidableEq, Repr

/-- Model of `types.rs` `Predicate`. -/
structure Predicate where
  field : String
  op : PredOp
  value : String
deriving DecidableEq, Repr

/-- Rust `<` on `String` is byte-wise lexicographic comparison of the
UTF-8 encodings, which equals codepoint-lexicographic comparison. -/
def charListLt : List Char → List Char → Bool
  | _, [] => false
  | [], _ :: _ => true
  | a :: as, b :: bs => decide (a < b) || (a == b && charListLt as bs)

/-- Rust `<=` on `String`, byte-wise lexicographic. -/
def charListLe : List Char → List Char → Bool
  | [], _ => true
  | _ :: _, [] => false
  | a :: as, b :: bs => decide (a < b) || (a == b && charListLe as bs)

/-- Rust `str::contains` with a string pattern: substring test.
`needle` is sought inside the second argument. -/
def isInfixB : List Char → List Char → Bool
  | n, [] => n.isEmpty
  | n, c :: t => n.isPrefixOf (c :: t) || isInfixB n t

/-- Model of `Predicate::satisfied_by` (types.rs): `value` is the
candidate cell value, compared against the predicate's stored value. -/
def Predicate.satisfied_by (p : Predicate) (v : String) : Bool :=
  match p.op with
  | .EQ => v == p.value
  | .NE => v != p.value
  | .LT => charListLt v.data p.value.data
  | .GT => charListLt p.value.data v.data
  | .LE => charListLe v.data p.value.data
  | .GE => charListLe p.value.data v.data
  | .CONTAINS => isInfixB p.value.data v.data

/-- Model of `types.rs` `CSVData`. -/
structure CSVData where
  header : List String
  records : List (List String)
deriving DecidableEq, Repr

/-- Model of `types.rs` `DataQuery`. -/
structure DataQuery where
  fields : List String
  predicates : List Predicate
  filename_regex_predicates : List Predicate
deriving DecidableEq, Repr

/-- Model of `types.rs` `FileMetadata`; `filepath` is kept as a string. -/
structure FileMetadata where
  filename : String
  collection : String
  filepath : String
  size : Nat
deriving DecidableEq, Repr

/-! ### Predicate-string parsing (`DataQuery::new`, types.rs)

`DataQuery::new` matches each predicate string against the anchored
regex `^(HAS |)(.+) (==|!=|<|>|<=|>=|CONTAINS) (.*)$` (rust regex crate,
leftmost-first semantics; `.` matches any character except a newline).
The functions below implement exactly that match: the `(HAS |)`
alternation prefers the `HAS ` branch, the greedy `(.+)` prefers the
longest field, i.e. the rightmost separator position, and at a fixed
separator position at most one operator alternative can be followed by
the mandatory space, so alternative order there is immaterial. -/

/-- The operator alternatives of the regex, in alternation order,
paired with the `PredOp` each one is mapped to by `DataQuery::new`. -/
def opTable : List (List Char × PredOp) :=
  [(['=', '='], .EQ), (['!', '='], .NE), (['<'], .LT), (['>'], .GT),
   (['<', '='], .LE), (['>', '='], .GE), ("CONTAINS".data, .CONTAINS)]

/-- Try each operator alternative at the head of `rest`: the operator
characters must be followed by a space, and the remaining value
(`(.*)$`) must contain no newline. -/
def opAtAux : List (List Char × PredOp) → List Char → Option (PredOp × List Char)
  | [], _ => none
  | (pat, op) :: tl, rest =>
    if (pat ++ [' ']).isPrefixOf rest then
      let v := rest.drop (pat.length + 1)
      if v.all (fun c => c ≠ '\n') then some (op, v) else opAtAux tl rest
    else opAtAux tl rest

/-- Attempt the split `field ++ " " ++ op ++ " " ++ value` with the
separator space at index `i` (the character there must be a space); the
field `(.+)` must contain no newline. -/
def checkAt (s : List Char) (i : Nat) : Option (List Char × PredOp × List Char) :=
  if (s.drop i).take 1 = [' '] then
    match opAtAux opTable (s.drop (i + 1)) with
    | some (op, v) =>
      if (s.take i).all (fun c => c ≠ '\n') then some (s.take i, op, v) else none
    | none => none
  else none

/-- Search separator positions from `i` downwards (greedy `(.+)`:
longest field first); position `0` would make the field empty and is
never tried. -/
def findSplit (s : List Char) : Nat → Option (List Char × PredOp × List Char)
  | 0 => none
  | i + 1 =>
    match checkAt s (i + 1) with
    | some r => some r
    | none => findSplit s i

/-- Match `(.+) (==|!=|<|>|<=|>=|CONTAINS) (.*)$` against all of `s`. -/
def coreMatch (s : List Char) : Option (List Char × PredOp × List Char) :=
  findSplit s (s.length - 1)

/-- Full match of `^(HAS |)(.+) (op) (.*)$` against the predicate
string: the `HAS ` branch of the alternation is preferred; on its
failure the whole string is re-matched with an empty first group.
Returns (group 1 nonempty?, field, operator, value). -/
def parsePredicate (s : String) : Option (Bool × List Char × PredOp × List Char) :=
  let cs := s.data
  if ("HAS ".data).isPrefixOf cs then
    match coreMatch (cs.drop 4) with
    | some (f, op, v) => some (true, f, op, v)
    | none => (coreMatch cs).map (fun r => (false, r.1, r.2.1, r.2.2))
  else
    (coreMatch cs).map (fun r => (false, r.1, r.2.1, r.2.2))

/-- The loop body of `DataQuery::new`: fold the predicate strings,
routing each parsed predicate to the row set or the filename set.
A string the regex rejects raises `PredicateError` carrying it.
(The Rust `match` arm for an unrecognized operator is unreachable:
the regex only ever captures the seven listed operators.) -/
def buildPredicates : List String → List Predicate → List Predicate →
    Except ZenithError (List Predicate × List Predicate)
  | [], preds, fps => .ok (preds, fps)
  | s :: rest, preds, fps =>
    match parsePredicate s with
    | some (isRegex, f, op, v) =>
      if isRegex then buildPredicates rest preds (fps ++ [⟨⟨f⟩, op, ⟨v⟩⟩])
      else buildPredicates rest (preds ++ [⟨⟨f⟩, op, ⟨v⟩⟩]) fps
    | none => .error (.PredicateError ("Incorrect format on predicate " ++ s))

/-- Model of `DataQuery::new` (types.rs). -/
def DataQuery.new (fields : List String) (string_predicates : List String) :
    Except ZenithError DataQuery :=
  match buildPredicates string_predicates [] [] with
  | .ok (preds, fps) => .ok ⟨fields, preds, fps⟩
  | .error e => .error e

/-! ### CSV row scanner (`read_csv`, db.rs) -/

/-- Lookup in the `record_hashmap` built by `read_csv`: the map is
filled by inserting the (header cell, record cell) pairs in order, so
for a duplicated header name the value of the last occurrence wins. -/
def hashGet : List (String × String) → String → Option String
  | [], _ => none
  | (k, v) :: rest, f =>
    match hashGet rest f with
    | some w => some w
    | none => if k = f then some v else none

/-- The predicate check of `read_csv`: either there are no predicates,
or every predicate is satisfied, a predicate whose field is absent from
the header being vacuously satisfied. -/
def rowPasses (q : DataQuery) (header record : List String) : Bool :=
  q.predicates.isEmpty || q.predicates.all (fun p =>
    match hashGet (header.zip record) p.field with
    | some v => p.satisfied_by v
    | none => true)

/-- The record loop of `read_csv` (db.rs lines 38-86), with the header
and accumulated records as explicit state. -/
def scanAux (q : DataQuery) : List (List String) → List String → List (List String) → CSVData
  | [], header, records => ⟨header, records⟩
  | record :: rest, header, records =>
    if header ≠ [] ∧ header.length = record.length then
      if rowPasses q header record then
        if q.fields = [] then
          if record ≠ [] then scanAux q rest header (records ++ [record])
          else scanAux q rest header records
        else
          let filtered := q.fields.filterMap (hashGet (header.zip record))
          if filtered ≠ [] then scanAux q rest header (records ++ [filtered])
          else scanAux q rest header records
      else scanAux q rest header records
    else if header = [] ∧ record.all (fun v => 0 < v.length) then
      scanAux q rest record records
    else scanAux q rest header records

/-- Model of `read_csv` (db.rs): scan the record stream of one file,
then trim the header to the requested fields when a projection was
supplied.  A failure of the underlying reader is modelled at the call
sites (`select`) by the absence of the record stream. -/
def read_csv (q : DataQuery) (rows : List (List String)) : CSVData :=
  let d := scanAux q rows [] []
  if q.fields = [] then d
  else ⟨q.fields.filter (fun f => d.header.contains f), d.records⟩

/-- The record loop of `render` (db.rs lines 354-368). -/
def renderAux : List (List String) → List String → List (List String) →
    List String × List (List String)
  | [], header, records => (header, records)
  | record :: rest, header, records =>
    if header ≠ [] ∧ header.length = record.length then
      renderAux rest header (records ++ [record])
    else if header = [] ∧ record.all (fun v => 0 < v.length) then
      renderAux rest record records
    else renderAux rest header records

/-- Model of `render` (db.rs). -/
def render (rows : List (List String)) : List String × List (List String) :=
  renderAux rows [] []

/-- The final value of the `header` variable of the scan loops: the
first record that is nonempty and has every cell nonempty (assigning an
empty record leaves the empty header unchanged, so empty records never
terminate the search). -/
def detectHeader : List (List String) → List String
  | [] => []
  | r :: rs =>
    if r ≠ [] ∧ r.all (fun v => 0 < v.length) then r else detectHeader rs

/-- Index right after which the scan loops start collecting records:
the position of the record `detectHeader` returns (list length if none). -/
def detectIdx : List (List String) → Nat
  | [] => 0
  | r :: rs =>
    if r ≠ [] ∧ r.all (fun v => 0 < v.length) then 0 else detectIdx rs + 1

/-! ### Collection enumeration and partitioning (db.rs) -/

/-- The regex pre-compilation loop of `list_collection_files`:
`compile` models `Regex::new` on the predicate's field, returning a
matcher (`Regex::find`: haystack to matched text) or a compile failure,
which aborts with `PredicateError` naming the pattern. -/
def compileAll (compile : String → Option (String → Option String)) :
    List Predicate → Except ZenithError (List ((String → Option String) × Predicate))
  | [] => .ok []
  | p :: ps =>
    match compile p.field with
    | some re =>
      match compileAll compile ps with
      | .ok rest => .ok ((re, p) :: rest)
      | .error e => .error e
    | none => .error (.PredicateError ("regex: " ++ p.field))

/-- Model of `list_collection_files` (db.rs).  `listing` is the result
of `read_dir` (`.error ()` when the directory cannot be listed); each
entry is the name and size of a directory entry, `.error ()` standing
for a failed entry, which the Rust code turns into a dummy entry with
empty name and size 0, filtered out below. -/
def list_collection_files (compile : String → Option (String → Option String))
    (collection : String) (listing : Except Unit (List (Except Unit (String × Nat))))
    (filename_regex_predicates : List Predicate) :
    Except ZenithError (List FileMetadata) :=
  match compileAll compile filename_regex_predicates with
  | .error e => .error e
  | .ok regex_predicates =>
    match listing with
    | .error _ => .error .FileSystemError
    | .ok entries =>
      .ok ((entries.map (fun e =>
        match e with
        | .ok (name, size) => ({ filename := name, collection := collection,
                                 filepath := name, size := size } : FileMetadata)
        | .error _ => { filename := "", collection := collection,
                        filepath := "", size := 0 })).filter (fun m =>
          (m.filename != "") && decide (0 < m.size) &&
          regex_predicates.all (fun rp =>
            match rp.1 m.filename with
            | some ma => rp.2.satisfied_by ma
            | none => false)))

/-- The comparator of `files.sort_by_key(|m| m.size)`. -/
def sizeLe (a b : FileMetadata) : Prop := a.size ≤ b.size

instance : DecidableRel sizeLe := fun a b => Nat.decLe a.size b.size

/-- `groups[j].push(x)`: the `j`-th group, which the caller keeps in
bounds, is extended at the end. -/
def pushNth (groups : List (List FileMetadata)) (j : Nat) (x : FileMetadata) :
    List (List FileMetadata) :=
  groups.set j (groups.getD j [] ++ [x])

/-- The distribution loop of `group_collection_files`: the `i`-th file
is pushed onto group `i % k`.  With `k = 0` the Rust expression
`i % k` panics, modelled by `none`. -/
def distribute : List FileMetadata → Nat → Nat → List (List FileMetadata) →
    Option (List (List FileMetadata))
  | [], _, _, groups => some groups
  | f :: fs, i, k, groups =>
    if k = 0 then none
    else distribute fs (i + 1) k (pushNth groups (i % k) f)

/-- Model of `group_collection_files` (db.rs): stable-sort ascending by
size, then distribute in descending order round-robin over `k` groups.
Rust's `sort_by_key` is a stable sort, and a stable sort is uniquely
determined by its comparator, so insertion sort computes exactly it.
`none` models the division-by-zero panic (`k = 0` with files present). -/
def group_collection_files (files : List FileMetadata) (k : Nat) :
    Option (List (List FileMetadata)) :=
  distribute ((List.insertionSort sizeLe files).reverse) 0 k (List.replicate k [])

/-! ### Scatter-gather select (db.rs) -/

/-- The receiver loop of `select`: the aggregate header is the first
nonempty header received (an empty received header is assigned but
leaves the header empty), and records are appended in arrival order. -/
def mergeAux : List CSVData → List String → List (List String) →
    List String × List (List String)
  | [], header, records => (header, records)
  | d :: ds, header, records =>
    mergeAux ds (if header.isEmpty then d.header else header) (records ++ d.records)

/-- Merge a list of per-file scan results in arrival order. -/
def mergeResults (results : List CSVData) : List String × List (List String) :=
  mergeAux results [] []

/-- One worker's loop body over its file group: a file whose read fails
(`readFile` returns `.error ()`, covering open failures and malformed
CSV) is logged and skipped; a successful read contributes its scan. -/
def scanFiles (readFile : String → Except Unit (List (List String)))
    (q : DataQuery) (files : List FileMetadata) : List CSVData :=
  files.filterMap (fun fm =>
    match readFile fm.filename with
    | .ok rows => some (read_csv q rows)
    | .error _ => none)

/-- Model of `select` (db.rs).  `k` is the configured worker count
(`config::envar_usize("ZENITHDS_NUM_WORKERS")`, default 4).  Arrival
order on the merge channel is nondeterministic in the Rust code; this
model fixes the admissible schedule in which workers deliver their
per-file results group-major (group 0 first, files in group order),
which is exactly the arrival order when each spawned worker runs to
completion before the next.  `none` models the partitioner's panic. -/
def select (compile : String → Option (String → Option String)) (collection : String)
    (listing : Except Unit (List (Except Unit (String × Nat))))
    (readFile : String → Except Unit (List (List String)))
    (k : Nat) (fields : List String) (predicates : List String) :
    Option (Except ZenithError (List String × List (List String))) :=
  match DataQuery.new fields predicates with
  | .error e => some (.error e)
  | .ok q =>
    match list_collection_files compile collection listing q.filename_regex_predicates with
    | .error e => some (.error e)
    | .ok files =>
      match group_collection_files files k with
      | none => none
      | some groups => some (.ok (mergeResults (scanFiles readFile q groups.flatten)))

/-! ### Write path (db.rs) -/

/-- The header-detection loop of `satisfies_collection_header`: unlike
the scan loops it breaks at the first record whose cells are all
nonempty (so a record with no cells ends the search with `[]`). -/
def detectBreak : List (List String) → List String
  | [] => []
  | r :: rs => if r.all (fun v => 0 < v.length) then r else detectBreak rs

/-- The entry loop of `satisfies_collection_header`: entries are the
(at most 3) sampled directory entries; a failed entry propagates
`FileSystemError`, a failed read of an entry's records propagates
`CSVError`, and a detected header differing from `header` in length or
at any position raises `QueryError`. -/
def checkEntries (header : List String) :
    List (Except Unit (String × Except Unit (List (List String)))) →
    Except ZenithError Unit
  | [] => .ok ()
  | .error _ :: _ => .error .FileSystemError
  | .ok (_, .error _) :: _ => .error .CSVError
  | .ok (_, .ok rows) :: rest =>
    let entry_header := detectBreak rows
    if entry_header.length ≠ header.length ∨
        (entry_header.zip header).any (fun ab => ab.1 != ab.2) then
      .error (.QueryError "Header does not match header in collection")
    else checkEntries header rest

/-- Model of `satisfies_collection_header` (db.rs): list the collection
directory (failure: `FileSystemError`), sample the first 3 entries and
check each one's detected header against the supplied header. -/
def satisfies_collection_header
    (listing : Except Unit (List (Except Unit (String × Except Unit (List (List String))))))
    (header : List String) : Except ZenithError Unit :=
  match listing with
  | .error _ => .error .FileSystemError
  | .ok entries => checkEntries header (entries.take 3)

/-- Model of `insert` (db.rs).  The `.ok` value is the full record
stream written to the target file (header first, then the rows); an
`.error` result is returned before the writer is ever created, so
nothing is written or overwritten in that case. -/
def insert (collection filename : String) (header : List String)
    (rows : List (List String))
    (listing : Except Unit (List (Except Unit (String × Except Unit (List (List String)))))) :
    Except ZenithError (List (List String)) :=
  if collection = "" ∨ filename = "" ∨ header = [] then
    .error (.QueryError "Payload collection, filename, or header is empty")
  else if rows.any (fun row => row.length != header.length) then
    .error (.QueryError "The length of a row does not match header")
  else
    match satisfies_collection_header listing header with
    | .error e => .error e
    | .ok _ => .ok (header :: rows)

/-! ### Derived characterizations and helper lemmas -/

/-- A record all of whose cells are nonempty (the header criterion). -/
def rowComplete (r : List String) : Bool := r.all (fun v => 0 < v.length)

/-- The per-record behaviour of the scan loop once the (nonempty)
header `hdr` is fixed: `some` is the emitted row, `none` a dropped one. -/
def stepFun (q : DataQuery) (hdr : List String) (r : List String) : Option (List String) :=
  if hdr.length = r.length ∧ rowPasses q hdr r then
    if q.fields = [] then (if r ≠ [] then some r else none)
    else
      (let filtered := q.fields.filterMap (hashGet (hdr.zip r));
       if filtered = [] then none else some filtered)
  else none

/-- The per-record behaviour of the render loop once the header is fixed. -/
def stepRender (hdr : List String) (r : List String) : Option (List String) :=
  if hdr.length = r.length then some r else none

/-- A character list matching `<field> <op> <value>` under the regex:
a nonempty newline-free field, an operator of the alternation, one
space on each side of the operator, and a newline-free value (possibly
empty). -/
def CoreDecomp (cs : List Char) : Prop :=
  ∃ (f v pat : List Char) (op : PredOp), (pat, op) ∈ opTable ∧ f ≠ [] ∧
    f.all (fun c => c ≠ '\n') = true ∧ v.all (fun c => c ≠ '\n') = true ∧
    cs = f ++ ' ' :: pat ++ ' ' :: v

/-- A predicate string consisting of the marker `HAS ` followed by a
string matching `<field> <op> <value>`. -/
def HasMarkerDecomp (s : String) : Prop :=
  ∃ rest : List Char, s.data = "HAS ".data ++ rest ∧ CoreDecomp rest

/-- The regex grammar `[HAS ]<field> <op> <value>` as matched by the
code: field and value exclude newlines, since the regex `.` does not
match a newline. -/
def MatchesGrammarStrict (s : String) : Prop :=
  HasMarkerDecomp s ∨ CoreDecomp s.data

/-- The spec's grammar `[HAS ]<field> <op> <value>` read naively: the
field is any nonempty string and the value any string (possibly empty),
with no restriction on the characters they contain. -/
def CoreDecompAny (cs : List Char) : Prop :=
  ∃ (f v pat : List Char) (op : PredOp), (pat, op) ∈ opTable ∧ f ≠ [] ∧
    cs = f ++ ' ' :: pat ++ ' ' :: v

/-- The naive grammar including the optional `HAS ` marker. -/
def MatchesGrammar (s : String) : Prop :=
  (∃ rest : List Char, s.data = "HAS ".data ++ rest ∧ CoreDecompAny rest) ∨
  CoreDecompAny s.data

lemma hashGet_mem_of_some {f v : String} :
    ∀ {ps : List (String × String)}, hashGet ps f = some v → f ∈ ps.map Prod.fst
  | [], h => by simp [hashGet] at h
  | (k, w) :: rest, h => by
    rw [hashGet] at h
    cases hrest : hashGet rest f with
    | some u =>
      rw [hrest] at h
      exact List.mem_cons_of_mem _ (hashGet_mem_of_some hrest)
    | none =>
      rw [hrest] at h
      by_cases hk : k = f
      · simp [hk]
      · simp [hk] at h

lemma hashGet_isSome_of_mem {f : String} :
    ∀ {ps : List (String × String)}, f ∈ ps.map Prod.fst → (hashGet ps f).isSome = true
  | [], h => by simp at h
  | (k, w) :: rest, h => by
    rw [hashGet]
    cases hrest : hashGet rest f with
    | some u => simp
    | none =>
      simp only [List.map_cons, List.mem_cons] at h
      rcases h with h | h
      · simp [h.symm]
      · have := hashGet_isSome_of_mem h
        rw [hrest] at this
        simp at this

lemma hashGet_zip_isSome {hdr r : List String} {f : String}
    (hlen : hdr.length = r.length) :
    (hashGet (hdr.zip r) f).isSome = true ↔ f ∈ hdr := by
  have hm : (hdr.zip r).map Prod.fst = hdr :=
    List.map_fst_zip hdr r (le_of_eq hlen)
  constructor
  · intro h
    obtain ⟨v, hv⟩ := Option.isSome_iff_exists.mp h
    exact hm ▸ hashGet_mem_of_some hv
  · intro h
    exact hashGet_isSome_of_mem (hm.symm ▸ h)

lemma hashGet_zip_none_of_not_mem {hdr r : List String} {f : String}
    (h : f ∉ hdr) : hashGet (hdr.zip r) f = none := by
  cases hg : hashGet (hdr.zip r) f with
  | none => rfl
  | some v =>
    exfalso
    have hmem := hashGet_mem_of_some hg
    obtain ⟨⟨a, b⟩, hab, rfl⟩ := List.mem_map.mp hmem
    exact h (List.of_mem_zip hab).1

lemma filterMap_length_eq_filter {α β : Type} (l : List α) (g : α → Option β)
    (p : α → Bool) (h : ∀ a ∈ l, (g a).isSome = p a) :
    (l.filterMap g).length = (l.filter p).length := by
  induction l with
  | nil => rfl
  | cons a l ih =>
    have ha := h a (List.mem_cons_self a l)
    have ihl := ih (fun b hb => h b (List.mem_cons_of_mem a hb))
    cases hg : g a with
    | none =>
      rw [hg] at ha
      simp only [List.filterMap_cons, hg, List.filter_cons, ← ha]
      simpa using ihl
    | some b =>
      rw [hg] at ha
      simp only [List.filterMap_cons, hg, List.filter_cons, ← ha]
      simpa using ihl

lemma scanAux_set (q : DataQuery) (hdr : List String) (hh : hdr ≠ []) :
    ∀ (rs recs : List (List String)),
    scanAux q rs hdr recs = ⟨hdr, recs ++ rs.filterMap (stepFun q hdr)⟩ := by
  intro rs
  induction rs with
  | nil => intro recs; simp [scanAux]
  | cons r rs ih =>
    intro recs
    rw [scanAux, List.filterMap_cons]
    by_cases hlen : hdr.length = r.length
    · rw [if_pos (And.intro hh hlen)]
      have hr : r ≠ [] := by
        intro hrnil
        apply hh
        rw [hrnil] at hlen
        simpa using List.length_eq_zero.mp (by simpa using hlen)
      by_cases hp : rowPasses q hdr r = true
      · rw [if_pos hp]
        by_cases hfld : q.fields = []
        · rw [if_pos hfld, if_pos hr, ih]
          have hstep : stepFun q hdr r = some r := by
            simp [stepFun, hlen, hp, hfld, hr]
          rw [hstep]
          simp
        · rw [if_neg hfld]
          by_cases hflt : q.fields.filterMap (hashGet (hdr.zip r)) = []
          · rw [if_neg (by simpa using hflt), ih]
            have hstep : stepFun q hdr r = none := by
              simp [stepFun, hlen, hp, hfld, hflt]
            rw [hstep]
          · rw [if_pos (by simpa using hflt), ih]
            have hstep : stepFun q hdr r =
                some (q.fields.filterMap (hashGet (hdr.zip r))) := by
              simp [stepFun, hlen, hp, hfld, hflt]
            rw [hstep]
            simp
      · rw [if_neg hp, ih]
        have hstep : stepFun q hdr r = none := by
          simp [stepFun, hp]
        rw [hstep]
    · rw [if_neg (fun hc => hlen hc.2), if_neg (fun hc => hh hc.1), ih]
      have hstep : stepFun q hdr r = none := by
        simp [stepFun, hlen]
      rw [hstep]

lemma scanAux_eq (q : DataQuery) (rows : List (List String)) :
    scanAux q rows [] [] =
      ⟨detectHeader rows,
       (rows.drop (detectIdx rows + 1)).filterMap (stepFun q (detectHeader rows))⟩ := by
  induction rows with
  | nil => simp [scanAux, detectHeader, detectIdx]
  | cons r rs ih =>
    have h1 : ¬(([] : List String) ≠ [] ∧ ([] : List String).length = r.length) := by
      simp
    rw [scanAux, if_neg h1]
    by_cases hfound : r ≠ [] ∧ r.all (fun v => 0 < v.length) = true
    · rw [if_pos (And.intro rfl hfound.2), scanAux_set q r hfound.1]
      rw [detectHeader, if_pos hfound, detectIdx, if_pos hfound]
      simp
    · have hdhd : detectHeader (r :: rs) = detectHeader rs := by
        rw [detectHeader, if_neg hfound]
      have hidx : detectIdx (r :: rs) = detectIdx rs + 1 := by
        rw [detectIdx, if_neg hfound]
      have step : (if ([] : List String) = [] ∧ r.all (fun v => 0 < v.length) = true
          then scanAux q rs r [] else scanAux q rs [] []) = scanAux q rs [] [] := by
        by_cases hcomp : r.all (fun v => 0 < v.length) = true
        · have hr : r = [] := by
            by_contra hr
            exact hfound ⟨hr, hcomp⟩
          rw [if_pos (And.intro rfl hcomp), hr]
        · rw [if_neg (fun hc => hcomp hc.2)]
      rw [step, ih, hdhd, hidx]
      simp [List.drop_succ_cons]

lemma contains_eq_mem (l : List String) (a : String) : l.contains a = true ↔ a ∈ l :=
  List.elem_iff

lemma detectHeader_eq_find (rows : List (List String)) (hne : ∀ r ∈ rows, r ≠ []) :
    detectHeader rows = (rows.find? rowComplete).getD [] := by
  induction rows with
  | nil => simp [detectHeader]
  | cons r rs ih =>
    have hr : r ≠ [] := hne r (List.mem_cons_self r rs)
    by_cases hc : r.all (fun v => 0 < v.length) = true
    · rw [detectHeader, if_pos (And.intro hr hc),
        List.find?_cons_of_pos _ (by simpa [rowComplete] using hc)]
      rfl
    · rw [detectHeader, if_neg (fun h => hc h.2),
        List.find?_cons_of_neg _ (by simpa [rowComplete] using hc)]
      exact ih (fun x hx => hne x (List.mem_cons_of_mem r hx))

lemma detectIdx_eq_findIdx (rows : List (List String)) (hne : ∀ r ∈ rows, r ≠ []) :
    detectIdx rows = rows.findIdx rowComplete := by
  induction rows with
  | nil => simp [detectIdx]
  | cons r rs ih =>
    have hr : r ≠ [] := hne r (List.mem_cons_self r rs)
    by_cases hc : r.all (fun v => 0 < v.length) = true
    · rw [detectIdx, if_pos (And.intro hr hc), List.findIdx_cons]
      simp [rowComplete, hc]
    · rw [detectIdx, if_neg (fun h => hc h.2), List.findIdx_cons]
      have : rowComplete r = false := by
        simpa [rowComplete] using hc
      simp only [this, cond_false]
      rw [ih (fun x hx => hne x (List.mem_cons_of_mem r hx))]
    
lemma detectIdx_of_header_nil (rows : List (List String))
    (h : detectHeader rows = []) : detectIdx rows = rows.length := by
  induction rows with
  | nil => simp [detectIdx]
  | cons r rs ih =>
    by_cases hfound : r ≠ [] ∧ r.all (fun v => 0 < v.length) = true
    · rw [detectHeader, if_pos hfound] at h
      exact absurd h hfound.1
    · rw [detectHeader, if_neg hfound] at h
      rw [detectIdx, if_neg hfound, ih h]
      rfl

lemma read_csv_eq (q : DataQuery) (rows : List (List String)) :
    read_csv q rows =
      ⟨(if q.fields = [] then detectHeader rows
        else q.fields.filter (fun f => (detectHeader rows).contains f)),
       (rows.drop (detectIdx rows + 1)).filterMap (stepFun q (detectHeader rows))⟩ := by
  by_cases hf : q.fields = []
  · simp only [read_csv, scanAux_eq, if_pos hf]
  · simp only [read_csv, scanAux_eq, if_neg hf]

lemma stepFun_length {q : DataQuery} {hdr r rec : List String}
    (h : stepFun q hdr r = some rec) :
    rec.length =
      (if q.fields = [] then hdr
       else q.fields.filter (fun f => hdr.contains f)).length := by
  unfold stepFun at h
  by_cases hc : hdr.length = r.length ∧ rowPasses q hdr r = true
  · rw [if_pos hc] at h
    by_cases hf : q.fields = []
    · rw [if_pos hf] at h
      by_cases hr : r ≠ []
      · rw [if_pos hr] at h
        injection h with h
        rw [if_pos hf, ← h, hc.1]
      · rw [if_neg hr] at h
        cases h
    · rw [if_neg hf] at h
      simp only at h
      by_cases hflt : q.fields.filterMap (hashGet (hdr.zip r)) = []
      · rw [if_pos hflt] at h
        cases h
      · rw [if_neg hflt] at h
        injection h with h
        rw [if_neg hf, ← h]
        apply filterMap_length_eq_filter
        intro f _
        by_cases hmem : f ∈ hdr
        · rw [(hashGet_zip_isSome hc.1).mpr hmem, ((contains_eq_mem hdr f).mpr hmem)]
        · rw [hashGet_zip_none_of_not_mem hmem]
          cases hcont : hdr.contains f with
          | false => rfl
          | true => exact absurd ((contains_eq_mem hdr f).mp hcont) hmem
  · rw [if_neg hc] at h
    cases h

lemma read_csv_rows_length (q : DataQuery) (rows : List (List String)) :
    ∀ rec ∈ (read_csv q rows).records,
      rec.length = (read_csv q rows).header.length := by
  rw [read_csv_eq]
  intro rec hrec
  obtain ⟨r, _, hstep⟩ := List.mem_filterMap.mp hrec
  exact stepFun_length hstep

lemma read_csv_header_empty (q : DataQuery) (rows : List (List String))
    (h : (read_csv q rows).header = []) : (read_csv q rows).records = [] := by
  rw [read_csv_eq] at h ⊢
  simp only at h ⊢
  by_cases hf : q.fields = []
  · rw [if_pos hf] at h
    have hidx := detectIdx_of_header_nil rows h
    rw [hidx, List.drop_eq_nil_of_le (Nat.le_succ_of_le (Nat.le_refl _))]
    rfl
  · rw [if_neg hf] at h
    apply List.filterMap_eq_nil_iff.mpr
    intro r _
    unfold stepFun
    by_cases hc : (detectHeader rows).length = r.length ∧ rowPasses q (detectHeader rows) r = true
    · rw [if_pos hc, if_neg hf]
      have hnone : q.fields.filterMap (hashGet ((detectHeader rows).zip r)) = [] := by
        apply List.filterMap_eq_nil_iff.mpr
        intro f hfmem
        apply hashGet_zip_none_of_not_mem
        intro hmem
        have : q.fields.filter (fun f => (detectHeader rows).contains f) ≠ [] :=
          List.ne_nil_of_mem (List.mem_filter.mpr ⟨hfmem, (contains_eq_mem _ f).mpr hmem⟩)
        exact this h
      simp [hnone]
    · rw [if_neg hc]

lemma renderAux_set (hdr : List String) (hh : hdr ≠ []) :
    ∀ (rs recs : List (List String)),
    renderAux rs hdr recs = (hdr, recs ++ rs.filterMap (stepRender hdr)) := by
  intro rs
  induction rs with
  | nil => intro recs; simp [renderAux]
  | cons r rs ih =>
    intro recs
    rw [renderAux, List.filterMap_cons]
    by_cases hlen : hdr.length = r.length
    · rw [if_pos (And.intro hh hlen), ih]
      have hstep : stepRender hdr r = some r := by simp [stepRender, hlen]
      rw [hstep]
      simp
    · rw [if_neg (fun hc => hlen hc.2), if_neg (fun hc => hh hc.1), ih]
      have hstep : stepRender hdr r = none := by simp [stepRender, hlen]
      rw [hstep]

lemma render_eq (rows : List (List String)) :
    render rows =
      (detectHeader rows,
       (rows.drop (detectIdx rows + 1)).filterMap (stepRender (detectHeader rows))) := by
  rw [render]
  induction rows with
  | nil => simp [renderAux, detectHeader, detectIdx]
  | cons r rs ih =>
    have h1 : ¬(([] : List String) ≠ [] ∧ ([] : List String).length = r.length) := by
      simp
    rw [renderAux, if_neg h1]
    by_cases hfound : r ≠ [] ∧ r.all (fun v => 0 < v.length) = true
    · rw [if_pos (And.intro rfl hfound.2), renderAux_set r hfound.1]
      rw [detectHeader, if_pos hfound, detectIdx, if_pos hfound]
      simp
    · have hdhd : detectHeader (r :: rs) = detectHeader rs := by
        rw [detectHeader, if_neg hfound]
      have hidx : detectIdx (r :: rs) = detectIdx rs + 1 := by
        rw [detectIdx, if_neg hfound]
      have step : (if ([] : List String) = [] ∧ r.all (fun v => 0 < v.length) = true
          then renderAux rs r [] else renderAux rs [] []) = renderAux rs [] [] := by
        by_cases hcomp : r.all (fun v => 0 < v.length) = true
        · have hr : r = [] := by
            by_contra hr
            exact hfound ⟨hr, hcomp⟩
          rw [if_pos (And.intro rfl hcomp), hr]
        · rw [if_neg (fun hc => hcomp hc.2)]
      rw [step, ih, hdhd, hidx]
      simp [List.drop_succ_cons]

lemma mergeAux_len (L : Nat) :
    ∀ (results : List CSVData) (hdrAcc : List String) (recsAcc : List (List String)),
    (∀ r ∈ results, ∀ rec ∈ r.records, rec.length = r.header.length) →
    (∀ r ∈ results, r.header ≠ [] → r.header.length = L) →
    (∀ r ∈ results, r.header = [] → r.records = []) →
    (hdrAcc = [] → recsAcc = []) →
    (hdrAcc ≠ [] → hdrAcc.length = L) →
    (∀ rec ∈ recsAcc, rec.length = L) →
    ∀ rec ∈ (mergeAux results hdrAcc recsAcc).2,
      rec.length = (mergeAux results hdrAcc recsAcc).1.length := by
  intro results
  induction results with
  | nil =>
    intro hdrAcc recsAcc _ _ _ h4 h5 h6 rec hrec
    simp only [mergeAux] at hrec ⊢
    by_cases hh : hdrAcc = []
    · rw [h4 hh] at hrec
      cases hrec
    · rw [h6 rec hrec, h5 hh]
  | cons d ds ih =>
    intro hdrAcc recsAcc h1 h2 h3 h4 h5 h6
    simp only [mergeAux]
    apply ih
    · intro r hr
      exact h1 r (List.mem_cons_of_mem d hr)
    · intro r hr
      exact h2 r (List.mem_cons_of_mem d hr)
    · intro r hr
      exact h3 r (List.mem_cons_of_mem d hr)
    · intro hnew
      by_cases hh : hdrAcc = []
      · rw [if_pos (by simpa using hh)] at hnew
        rw [h4 hh, h3 d (List.mem_cons_self d ds) hnew]
        rfl
      · rw [if_neg (by simpa using hh)] at hnew
        exact absurd hnew hh
    · intro hnew
      by_cases hh : hdrAcc = []
      · rw [if_pos (by simpa using hh)] at hnew ⊢
        exact h2 d (List.mem_cons_self d ds) hnew
      · rw [if_neg (by simpa using hh)] at hnew ⊢
        exact h5 hh
    · intro rec hrec
      rcases List.mem_append.mp hrec with hrec | hrec
      · exact h6 rec hrec
      · have hlen := h1 d (List.mem_cons_self d ds) rec hrec
        have hdne : d.header ≠ [] := by
          intro hnil
          rw [h3 d (List.mem_cons_self d ds) hnil] at hrec
          cases hrec
        rw [hlen, h2 d (List.mem_cons_self d ds) hdne]


lemma stepFun_some_fields_nil {q : DataQuery} {hdr r rec : List String}
    (hq : q.fields = []) (h : stepFun q hdr r = some rec) : rec = r := by
  unfold stepFun at h
  by_cases hc : hdr.length = r.length ∧ rowPasses q hdr r = true
  · rw [if_pos hc, if_pos hq] at h
    by_cases hr : r ≠ []
    · rw [if_pos hr] at h
      injection h with h
      exact h.symm
    · rw [if_neg hr] at h
      cases h
  · rw [if_neg hc] at h
    cases h

lemma stepFun_some_proj {q : DataQuery} {hdr r rec : List String}
    (hq : q.fields ≠ []) (h : stepFun q hdr r = some rec) :
    rec ≠ [] ∧ rec = q.fields.filterMap (hashGet (hdr.zip r)) := by
  unfold stepFun at h
  by_cases hc : hdr.length = r.length ∧ rowPasses q hdr r = true
  · rw [if_pos hc, if_neg hq] at h
    simp only at h
    by_cases hflt : q.fields.filterMap (hashGet (hdr.zip r)) = []
    · rw [if_pos hflt] at h
      cases h
    · rw [if_neg hflt] at h
      injection h with h
      exact ⟨h ▸ hflt, h.symm⟩
  · rw [if_neg hc] at h
    cases h

lemma stepRender_some {hdr r rec : List String}
    (h : stepRender hdr r = some rec) : rec = r := by
  unfold stepRender at h
  by_cases hc : hdr.length = r.length
  · rw [if_pos hc] at h
    injection h with h
    exact h.symm
  · rw [if_neg hc] at h
    cases h

lemma isEmpty_or_all {α : Type} (l : List α) (f : α → Bool) :
    (l.isEmpty || l.all f) = l.all f := by
  cases l <;> simp

lemma all_filter_eq {α : Type} (l : List α) (g f : α → Bool)
    (h : ∀ p ∈ l, g p = false → f p = true) :
    (l.filter g).all f = l.all f := by
  induction l with
  | nil => rfl
  | cons p l ih =>
    have ihl := ih (fun x hx => h x (List.mem_cons_of_mem p hx))
    cases hg : g p with
    | true => simp [List.filter_cons, hg, List.all_cons, ihl]
    | false =>
      simp [List.filter_cons, hg, List.all_cons, ihl,
        h p (List.mem_cons_self p l) hg]

lemma rowPasses_filter (q : DataQuery) (hdr r : List String) :
    rowPasses ⟨q.fields, q.predicates.filter (fun p => hdr.contains p.field),
        q.filename_regex_predicates⟩ hdr r = rowPasses q hdr r := by
  unfold rowPasses
  simp only
  rw [isEmpty_or_all, isEmpty_or_all]
  apply all_filter_eq
  intro p _ hg
  have hmem : p.field ∉ hdr := by
    intro hmem
    rw [(contains_eq_mem hdr p.field).mpr hmem] at hg
    cases hg
  rw [hashGet_zip_none_of_not_mem hmem]

lemma stepFun_filter_preds (q : DataQuery) (hdr r : List String) :
    stepFun ⟨q.fields, q.predicates.filter (fun p => hdr.contains p.field),
        q.filename_regex_predicates⟩ hdr r = stepFun q hdr r := by
  unfold stepFun
  rw [rowPasses_filter]

/-- C8: a row predicate whose field does not occur in the file's
detected header is vacuously satisfied: scanning with the full
predicate list gives exactly the same result as scanning with only the
predicates whose fields occur in the detected header, for any file and
any query. -/
theorem c8_absent_field_predicate_vacuous (rows : List (List String)) (q : DataQuery) :
    read_csv q rows =
      read_csv ⟨q.fields, q.predicates.filter (fun p => (detectHeader rows).contains p.field),
        q.filename_regex_predicates⟩ rows := by
  rw [read_csv_eq, read_csv_eq]
  have hrec :
      (rows.drop (detectIdx rows + 1)).filterMap (stepFun q (detectHeader rows)) =
      (rows.drop (detectIdx rows + 1)).filterMap
        (stepFun ⟨q.fields, q.predicates.filter (fun p => (detectHeader rows).contains p.field),
          q.filename_regex_predicates⟩ (detectHeader rows)) :=
    (List.filterMap_congr (fun r _ => stepFun_filter_preds q (detectHeader rows) r)).symm
  rw [hrec]

/-- C6: for every scanned record stream without empty records (the csv
reader skips blank lines, so record streams of real files are such),
and for a query without projection, the returned header is the first
record all of whose cells are nonempty, and every returned record
occurs in the stream strictly after that first complete record — no
earlier record is ever included.  The same holds for `render`. -/
theorem c6_header_is_first_complete_row (rows : List (List String))
    (hne : ∀ r ∈ rows, r ≠ []) :
    (∀ q : DataQuery, q.fields = [] →
      (read_csv q rows).header = (rows.find? rowComplete).getD [] ∧
      ∀ rec ∈ (read_csv q rows).records,
        rec ∈ rows.drop (rows.findIdx rowComplete + 1)) ∧
    (render rows).1 = (rows.find? rowComplete).getD [] ∧
    (∀ rec ∈ (render rows).2, rec ∈ rows.drop (rows.findIdx rowComplete + 1)) := by
  have hdet := detectHeader_eq_find rows hne
  have hidx := detectIdx_eq_findIdx rows hne
  refine ⟨fun q hq => ⟨?_, ?_⟩, ?_, ?_⟩
  · rw [read_csv_eq]
    simp only [if_pos hq]
    exact hdet
  · rw [read_csv_eq]
    intro rec hrec
    simp only at hrec
    obtain ⟨r, hr, hstep⟩ := List.mem_filterMap.mp hrec
    rw [stepFun_some_fields_nil hq hstep, ← hidx]
    exact hr
  · rw [render_eq]
    exact hdet
  · rw [render_eq]
    intro rec hrec
    obtain ⟨r, hr, hstep⟩ := List.mem_filterMap.mp hrec
    rw [stepRender_some hstep, ← hidx]
    exact hr

/-- Witness for C6 at a concrete file: an incomplete first row is
discarded, the first complete row becomes the header. -/
theorem c6_header_is_first_complete_row_witness :
    (read_csv ⟨[], [], []⟩ [["a", ""], ["h"], ["x"]]).header =
        (([["a", ""], ["h"], ["x"]] : List (List String)).find? rowComplete).getD [] ∧
    (render [["a", ""], ["h"], ["x"]]).1 =
        (([["a", ""], ["h"], ["x"]] : List (List String)).find? rowComplete).getD [] :=
  have h := c6_header_is_first_complete_row [["a", ""], ["h"], ["x"]] (by decide)
  ⟨(h.1 ⟨[], [], []⟩ rfl).1, h.2.1⟩

/-- C7: with a nonempty projection list, the returned header is the
detected header trimmed to the projection, the returned records are
exactly the per-row scan outcomes of the records after the header, and
every emitted record is nonempty and consists of the projected fields'
values looked up in its source row, in projection-list order. -/
theorem c7_projection (rows : List (List String)) (q : DataQuery)
    (hne : ∀ r ∈ rows, r ≠ []) (hf : q.fields ≠ []) :
    (read_csv q rows).header =
      q.fields.filter (fun f => (((rows.find? rowComplete).getD []).contains f)) ∧
    (read_csv q rows).records =
      (rows.drop (rows.findIdx rowComplete + 1)).filterMap
        (stepFun q ((rows.find? rowComplete).getD [])) ∧
    ∀ rec ∈ (read_csv q rows).records, rec ≠ [] ∧ ∃ src,
      src ∈ rows.drop (rows.findIdx rowComplete + 1) ∧
      rec = q.fields.filterMap (hashGet ((((rows.find? rowComplete).getD [])).zip src)) := by
  have hdet := detectHeader_eq_find rows hne
  have hidx := detectIdx_eq_findIdx rows hne
  rw [read_csv_eq]
  refine ⟨?_, ?_, ?_⟩
  · simp only [if_neg hf]
    rw [hdet]
  · simp only
    rw [hdet, hidx]
  · simp only
    intro rec hrec
    obtain ⟨r, hr, hstep⟩ := List.mem_filterMap.mp hrec
    obtain ⟨hne2, hproj⟩ := stepFun_some_proj hf hstep
    refine ⟨hne2, r, ?_, ?_⟩
    · rw [← hidx]
      exact hr
    · rw [← hdet]
      exact hproj

/-- Witness for C7: projecting `["v", "k"]` against a file with header
`k,v` returns the values reordered to the projection order. -/
theorem c7_projection_witness :
    (read_csv ⟨["v", "k"], [], []⟩ [["k", "v"], ["1", "2"]]).header =
      (["v", "k"] : List String).filter
        (fun f => ((([["k", "v"], ["1", "2"]] : List (List String)).find? rowComplete).getD []).contains f) ∧
    (read_csv ⟨["v", "k"], [], []⟩ [["k", "v"], ["1", "2"]]).header = ["v", "k"] ∧
    (read_csv ⟨["v", "k"], [], []⟩ [["k", "v"], ["1", "2"]]).records = [["2", "1"]] :=
  have h := c7_projection [["k", "v"], ["1", "2"]] ⟨["v", "k"], [], []⟩ (by decide) (by decide)
  ⟨h.1, by decide, by decide⟩

/-- C1 (amended): every record of a per-file scan result has the length
of that result's header; and when all per-file headers that are
nonempty share one length `L` (the documented assumption that all files
of a collection carry one schema), every row of the merged aggregate
has the length of the aggregate header. -/
theorem c1_row_length_matches_header (streams : List (List (List String)))
    (q : DataQuery) (L : Nat)
    (hL : ∀ s ∈ streams, (read_csv q s).header ≠ [] → (read_csv q s).header.length = L) :
    (∀ s ∈ streams, ∀ rec ∈ (read_csv q s).records,
        rec.length = (read_csv q s).header.length) ∧
    ∀ rec ∈ (mergeResults (streams.map (fun s => read_csv q s))).2,
      rec.length = (mergeResults (streams.map (fun s => read_csv q s))).1.length := by
  constructor
  · intro s _
    exact read_csv_rows_length q s
  · rw [mergeResults]
    apply mergeAux_len L
    · intro r hr
      obtain ⟨s, hs, rfl⟩ := List.mem_map.mp hr
      exact read_csv_rows_length q s
    · intro r hr
      obtain ⟨s, hs, rfl⟩ := List.mem_map.mp hr
      exact hL s hs
    · intro r hr
      obtain ⟨s, hs, rfl⟩ := List.mem_map.mp hr
      exact read_csv_header_empty q s
    · intro _
      rfl
    · intro h
      exact absurd rfl h
    · intro rec hrec
      cases hrec

/-- Witness for C1 (amended) at two concrete files with equal header
lengths: the merged row `["b"]` has the aggregate header's length. -/
theorem c1_row_length_matches_header_witness :
    (["b"] : List String).length =
      (mergeResults ([[["a"], ["b"]], [["c"], ["d"]]].map
        (fun s => read_csv ⟨[], [], []⟩ s))).1.length :=
  (c1_row_length_matches_header [[["a"], ["b"]], [["c"], ["d"]]] ⟨[], [], []⟩ 1
    (by decide)).2 ["b"] (by decide)

/-- Counterexample to C1 as stated: with two files of divergent headers
(`a` of length 1, `c,d` of length 2) in one collection and a single
worker (an admissible schedule of the Rust code), `select` returns the
aggregate header `["c", "d"]` together with the row `["b"]` of length 1:
a returned row whose length differs from the returned header's. -/
theorem c1_select_cex :
    select (fun _ => none) "main" (.ok [.ok ("a.csv", 1), .ok ("b.csv", 2)])
        (fun n => if n = "a.csv" then .ok [["a"], ["b"]] else .ok [["c", "d"], ["e", "f"]])
        1 [] [] =
      some (.ok (["c", "d"], [["e", "f"], ["b"]])) ∧
    ¬ ∀ rec ∈ [["e", "f"], ["b"]], rec.length = (["c", "d"] : List String).length :=
  ⟨rfl, by decide⟩


lemma getD_set_self {α : Type} :
    ∀ (l : List α) (j : Nat), j < l.length → ∀ (v d : α), (l.set j v).getD j d = v
  | [], j, h, _, _ => absurd h (Nat.not_lt_zero j)
  | _ :: _, 0, _, _, _ => rfl
  | _ :: l, j + 1, h, v, d => getD_set_self l j (Nat.lt_of_succ_lt_succ h) v d

lemma getD_set_ne {α : Type} :
    ∀ (l : List α) (i j : Nat), i ≠ j → ∀ (v d : α), (l.set i v).getD j d = l.getD j d
  | [], _, _, _, _, _ => rfl
  | _ :: _, 0, 0, h, _, _ => absurd rfl h
  | _ :: _, 0, _ + 1, _, _, _ => rfl
  | _ :: _, _ + 1, 0, _, _, _ => rfl
  | _ :: l, i + 1, j + 1, h, v, d =>
    getD_set_ne l i j (fun he => h (congrArg Nat.succ he)) v d

lemma distribute_spec (k : Nat) (hk : k ≠ 0) :
    ∀ (l : List FileMetadata) (i : Nat) (groups : List (List FileMetadata)),
      groups.length = k →
    ∃ g, distribute l i k groups = some g ∧ g.length = k ∧
      (∀ j (hj : j < l.length), l.get ⟨j, hj⟩ ∈ g.getD ((i + j) % k) []) ∧
      (∀ m x, x ∈ groups.getD m [] → x ∈ g.getD m []) := by
  intro l
  induction l with
  | nil =>
    intro i groups hg
    exact ⟨groups, rfl, hg, fun j hj => absurd hj (Nat.not_lt_zero j),
      fun m x hx => hx⟩
  | cons f fs ih =>
    intro i groups hg
    have hik : i % k < groups.length := by
      rw [hg]
      exact Nat.mod_lt i (Nat.pos_of_ne_zero hk)
    have hlen : (pushNth groups (i % k) f).length = k := by
      simp [pushNth, hg]
    obtain ⟨g, hgq, hglen, hmem, hpres⟩ := ih (i + 1) (pushNth groups (i % k) f) hlen
    refine ⟨g, ?_, hglen, ?_, ?_⟩
    · rw [distribute, if_neg hk, hgq]
    · intro j hj
      cases j with
      | zero =>
        have hf : f ∈ (pushNth groups (i % k) f).getD (i % k) [] := by
          rw [pushNth, getD_set_self groups (i % k) hik]
          exact List.mem_append_right _ (List.mem_singleton.mpr rfl)
        have := hpres _ f hf
        simpa using this
      | succ j =>
        have := hmem j (by simpa using hj)
        have harith : i + 1 + j = i + (j + 1) := by omega
        rw [harith] at this
        simpa using this
    · intro m x hx
      apply hpres
      by_cases hm : m = i % k
      · rw [hm] at hx ⊢
        rw [pushNth, getD_set_self groups (i % k) hik]
        exact List.mem_append_left _ hx
      · rw [pushNth, getD_set_ne groups (i % k) m (fun he => hm he.symm)]
        exact hx

lemma distribute_some {k : Nat} (hk : k ≠ 0) :
    ∀ (l : List FileMetadata) (i : Nat) (groups : List (List FileMetadata)),
    ∃ g, distribute l i k groups = some g := by
  intro l
  induction l with
  | nil => exact fun i groups => ⟨groups, rfl⟩
  | cons f fs ih =>
    intro i groups
    obtain ⟨g, hg⟩ := ih (i + 1) (pushNth groups (i % k) f)
    exact ⟨g, by rw [distribute, if_neg hk, hg]⟩

/-- C4 (amended): for every file list and every worker count `k ≥ 1`
the partitioner succeeds and yields exactly `k` groups; the file list is
stable-sorted ascending by size, and the `j`-th file of the resulting
descending order lands in group `j mod k`; partitioning is a pure
function of the file list and `k`, hence deterministic across calls. -/
theorem c4_partitioner (files : List FileMetadata) (k : Nat) (hk : 1 ≤ k) :
    ∃ g, group_collection_files files k = some g ∧
      g.length = k ∧
      (List.insertionSort sizeLe files).Perm files ∧
      List.Sorted sizeLe (List.insertionSort sizeLe files) ∧
      (∀ j (hj : j < (List.insertionSort sizeLe files).reverse.length),
        (List.insertionSort sizeLe files).reverse.get ⟨j, hj⟩ ∈ g.getD (j % k) []) ∧
      ∀ (files' : List FileMetadata) (k' : Nat), files' = files → k' = k →
        group_collection_files files' k' = group_collection_files files k := by
  have hk0 : k ≠ 0 := Nat.one_le_iff_ne_zero.mp hk
  obtain ⟨g, hgq, hglen, hmem, _⟩ :=
    distribute_spec k hk0 ((List.insertionSort sizeLe files).reverse) 0
      (List.replicate k []) (List.length_replicate k [])
  haveI htot : IsTotal FileMetadata sizeLe := ⟨fun a b => Nat.le_total a.size b.size⟩
  haveI htr : IsTrans FileMetadata sizeLe := ⟨fun a b c hab hbc => Nat.le_trans hab hbc⟩
  refine ⟨g, hgq, hglen, List.perm_insertionSort sizeLe files,
    List.sorted_insertionSort sizeLe files, ?_, ?_⟩
  · intro j hj
    have := hmem j hj
    simpa using this
  · intro files' k' hf hk'
    rw [hf, hk']

/-- Witness for C4 at two concrete files and two workers. -/
theorem c4_partitioner_witness :
    ∃ g, group_collection_files [⟨"a", "c", "a", 3⟩, ⟨"b", "c", "b", 1⟩] 2 = some g ∧
      g.length = 2 := by
  obtain ⟨g, h1, h2, _⟩ :=
    c4_partitioner [⟨"a", "c", "a", 3⟩, ⟨"b", "c", "b", 1⟩] 2 (by decide)
  exact ⟨g, h1, h2⟩

/-- Counterexample to C4 as stated: at worker count `K = 0` with one
file present the Rust loop body evaluates `i % 0`, which panics, so no
list of groups (in particular not an empty one) is ever produced. -/
theorem c4_partitioner_cex :
    group_collection_files [⟨"a", "c", "a", 1⟩] 0 = none := rfl

lemma buildPredicates_error :
    ∀ {ss : List String} {a b : List Predicate} {e : ZenithError},
    buildPredicates ss a b = .error e →
    ∃ s ∈ ss, parsePredicate s = none ∧
      e = .PredicateError ("Incorrect format on predicate " ++ s) := by
  intro ss
  induction ss with
  | nil => intro a b e h; cases h
  | cons s rest ih =>
    intro a b e h
    rw [buildPredicates] at h
    cases hp : parsePredicate s with
    | none =>
      rw [hp] at h
      injection h with h
      exact ⟨s, List.mem_cons_self s rest, hp, h.symm⟩
    | some r =>
      obtain ⟨flag, f, op, v⟩ := r
      rw [hp] at h
      by_cases hflag : flag = true
      · rw [hflag] at h
        simp only [if_pos rfl] at h
        obtain ⟨t, ht, h1, h2⟩ := ih h
        exact ⟨t, List.mem_cons_of_mem s ht, h1, h2⟩
      · have : flag = false := Bool.eq_false_iff.mpr hflag
        rw [this] at h
        simp only [Bool.false_eq_true, if_neg] at h
        obtain ⟨t, ht, h1, h2⟩ := ih h
        exact ⟨t, List.mem_cons_of_mem s ht, h1, h2⟩

lemma buildPredicates_ok :
    ∀ {ss : List String}, (∀ s ∈ ss, parsePredicate s ≠ none) →
    ∀ (a b : List Predicate), ∃ pr, buildPredicates ss a b = .ok pr := by
  intro ss
  induction ss with
  | nil => exact fun _ a b => ⟨(a, b), rfl⟩
  | cons s rest ih =>
    intro h a b
    cases hp : parsePredicate s with
    | none => exact absurd hp (h s (List.mem_cons_self s rest))
    | some r =>
      obtain ⟨flag, f, op, v⟩ := r
      have hrest := fun t ht => h t (List.mem_cons_of_mem s ht)
      cases flag with
      | true =>
        obtain ⟨pr, hpr⟩ := ih hrest a (b ++ [⟨⟨f⟩, op, ⟨v⟩⟩])
        exact ⟨pr, by rw [buildPredicates, hp]; simpa using hpr⟩
      | false =>
        obtain ⟨pr, hpr⟩ := ih hrest (a ++ [⟨⟨f⟩, op, ⟨v⟩⟩]) b
        exact ⟨pr, by rw [buildPredicates, hp]; simpa using hpr⟩

lemma DataQuery_new_error {fields ss : List String} {e : ZenithError}
    (h : DataQuery.new fields ss = .error e) :
    ∃ s ∈ ss, parsePredicate s = none ∧
      e = .PredicateError ("Incorrect format on predicate " ++ s) := by
  rw [DataQuery.new] at h
  cases hb : buildPredicates ss [] [] with
  | ok pr =>
    obtain ⟨p, f⟩ := pr
    rw [hb] at h
    cases h
  | error e2 =>
    rw [hb] at h
    injection h with h
    exact h ▸ buildPredicates_error hb

lemma DataQuery_new_ok (fields : List String) {ss : List String}
    (h : ∀ s ∈ ss, parsePredicate s ≠ none) :
    ∃ q, DataQuery.new fields ss = .ok q := by
  obtain ⟨⟨a, b⟩, hpr⟩ := buildPredicates_ok h [] []
  exact ⟨⟨fields, a, b⟩, by rw [DataQuery.new, hpr]⟩

lemma compileAll_error {compile : String → Option (String → Option String)} :
    ∀ {ps : List Predicate} {e : ZenithError},
    compileAll compile ps = .error e →
    ∃ p ∈ ps, compile p.field = none ∧ e = .PredicateError ("regex: " ++ p.field) := by
  intro ps
  induction ps with
  | nil => intro e h; cases h
  | cons p ps ih =>
    intro e h
    rw [compileAll] at h
    cases hc : compile p.field with
    | none =>
      rw [hc] at h
      injection h with h
      exact ⟨p, List.mem_cons_self p ps, hc, h.symm⟩
    | some re =>
      rw [hc] at h
      cases hrest : compileAll compile ps with
      | ok rest => rw [hrest] at h; cases h
      | error e2 =>
        rw [hrest] at h
        injection h with h
        obtain ⟨p2, hp2, h1, h2⟩ := ih hrest
        exact ⟨p2, List.mem_cons_of_mem p hp2, h1, h ▸ h2⟩

lemma compileAll_ok {compile : String → Option (String → Option String)} :
    ∀ {ps : List Predicate}, (∀ p ∈ ps, compile p.field ≠ none) →
    ∃ rs, compileAll compile ps = .ok rs := by
  intro ps
  induction ps with
  | nil => exact fun _ => ⟨[], rfl⟩
  | cons p ps ih =>
    intro h
    cases hc : compile p.field with
    | none => exact absurd hc (h p (List.mem_cons_self p ps))
    | some re =>
      obtain ⟨rs, hrs⟩ := ih (fun x hx => h x (List.mem_cons_of_mem p hx))
      exact ⟨(re, p) :: rs, by rw [compileAll, hc, hrs]⟩

lemma list_collection_files_error {compile : String → Option (String → Option String)}
    {collection : String} {listing : Except Unit (List (Except Unit (String × Nat)))}
    {fps : List Predicate} {e : ZenithError}
    (h : list_collection_files compile collection listing fps = .error e) :
    ((∃ msg, e = .PredicateError msg) ∧ ∃ p ∈ fps, compile p.field = none) ∨
    (e = .FileSystemError ∧ listing = .error ()) := by
  rw [list_collection_files] at h
  cases hc : compileAll compile fps with
  | error e2 =>
    rw [hc] at h
    injection h with h
    obtain ⟨p, hp, h1, h2⟩ := compileAll_error hc
    exact Or.inl ⟨⟨"regex: " ++ p.field, by rw [← h, h2]⟩, p, hp, h1⟩
  | ok rs =>
    rw [hc] at h
    cases hl : listing with
    | error u =>
      rw [hl] at h
      injection h with h
      cases u
      exact Or.inr ⟨h.symm, rfl⟩
    | ok es =>
      rw [hl] at h
      cases h

lemma list_collection_files_eq_ok {compile : String → Option (String → Option String)}
    {collection : String} {es : List (Except Unit (String × Nat))}
    {fps : List Predicate} {rs : List ((String → Option String) × Predicate)}
    (hrs : compileAll compile fps = .ok rs) :
    list_collection_files compile collection (.ok es) fps =
      .ok ((es.map (fun e =>
        match e with
        | .ok (name, size) => ({ filename := name, collection := collection,
                                 filepath := name, size := size } : FileMetadata)
        | .error _ => { filename := "", collection := collection,
                        filepath := "", size := 0 })).filter (fun m =>
          (m.filename != "") && decide (0 < m.size) &&
          rs.all (fun rp =>
            match rp.1 m.filename with
            | some ma => rp.2.satisfied_by ma
            | none => false))) := by
  rw [list_collection_files, hrs]

lemma list_collection_files_ok (compile : String → Option (String → Option String))
    (collection : String) (listing : Except Unit (List (Except Unit (String × Nat))))
    (fps : List Predicate) (hc : ∀ p ∈ fps, compile p.field ≠ none)
    (es : List (Except Unit (String × Nat))) (hl : listing = .ok es) :
    ∃ fl, list_collection_files compile collection listing fps = .ok fl := by
  obtain ⟨rs, hrs⟩ := compileAll_ok hc
  subst hl
  exact ⟨_, list_collection_files_eq_ok hrs⟩

/-- C2: `select` can return an error only from query construction (a
`PredicateError`), from a filename-regex that fails to compile (also a
`PredicateError`), or from an unlistable collection directory
(`FileSystemError`); conversely, when parsing succeeds, every
filename-regex compiles, the directory lists, and at least one worker
is configured, `select` returns `Ok` — for every per-file read outcome
`readFile`, so per-file scan failures never propagate to the caller. -/
theorem c2_select_error_sources (compile : String → Option (String → Option String))
    (collection : String) (listing : Except Unit (List (Except Unit (String × Nat))))
    (readFile : String → Except Unit (List (List String)))
    (k : Nat) (fields predicates : List String) :
    (∀ e, select compile collection listing readFile k fields predicates = some (.error e) →
      ((∃ msg, e = .PredicateError msg) ∧
        (DataQuery.new fields predicates = .error e ∨
         ∃ q, DataQuery.new fields predicates = .ok q ∧
           ∃ p ∈ q.filename_regex_predicates, compile p.field = none)) ∨
      (e = .FileSystemError ∧ listing = .error ())) ∧
    (1 ≤ k → (∀ s ∈ predicates, parsePredicate s ≠ none) →
      (∀ q, DataQuery.new fields predicates = .ok q →
        ∀ p ∈ q.filename_regex_predicates, compile p.field ≠ none) →
      ∀ es, listing = .ok es →
      ∃ hr, select compile collection listing readFile k fields predicates =
        some (.ok hr)) := by
  constructor
  · intro e hsel
    cases hq : DataQuery.new fields predicates with
    | error e2 =>
      simp only [select, hq] at hsel
      injection hsel with hsel
      injection hsel with hsel
      subst hsel
      obtain ⟨s, hs, h1, h2⟩ := DataQuery_new_error hq
      exact Or.inl ⟨⟨_, h2⟩, Or.inl rfl⟩
    | ok q =>
      simp only [select, hq] at hsel
      cases hl : list_collection_files compile collection listing
          q.filename_regex_predicates with
      | error e2 =>
        simp only [hl] at hsel
        injection hsel with hsel
        injection hsel with hsel
        subst hsel
        rcases list_collection_files_error hl with ⟨hmsg, hp⟩ | hfs
        · exact Or.inl ⟨hmsg, Or.inr ⟨q, rfl, hp⟩⟩
        · exact Or.inr hfs
      | ok files =>
        simp only [hl] at hsel
        cases hg : group_collection_files files k with
        | none =>
          simp only [hg] at hsel
          exact Option.noConfusion hsel
        | some groups =>
          simp only [hg] at hsel
          injection hsel with hsel
          exact Except.noConfusion hsel
  · intro hk hparse hcompile es hlist
    obtain ⟨q, hq⟩ := DataQuery_new_ok fields hparse
    obtain ⟨fl, hfl⟩ :=
      list_collection_files_ok compile collection listing q.filename_regex_predicates
        (hcompile q hq) es hlist
    obtain ⟨g, hg⟩ :=
      distribute_some (Nat.one_le_iff_ne_zero.mp hk)
        ((List.insertionSort sizeLe fl).reverse) 0 (List.replicate k [])
    refine ⟨mergeResults (scanFiles readFile q g.flatten), ?_⟩
    simp only [select, hq, hfl, group_collection_files, hg]

/-- Witness for C2: a trivially listable empty collection with a
failing `readFile` still yields `Ok`. -/
theorem c2_select_error_sources_witness :
    ∃ hr, select (fun _ => some (fun _ => some "")) "main" (.ok [])
      (fun _ => .error ()) 1 [] [] = some (.ok hr) :=
  (c2_select_error_sources (fun _ => some (fun _ => some "")) "main" (.ok [])
      (fun _ => .error ()) 1 [] []).2 (by decide)
    (fun s hs => absurd hs (List.not_mem_nil s))
    (fun q hq p hp => by
      rw [show DataQuery.new ([] : List String) [] = .ok ⟨[], [], []⟩ from rfl] at hq
      injection hq with hq
      rw [← hq] at hp
      exact absurd hp (List.not_mem_nil p))
    [] rfl


lemma list_ne_iff :
    ∀ (a b : List String),
    a ≠ b ↔ (a.length ≠ b.length ∨ ((a.zip b).any (fun ab => ab.1 != ab.2)) = true)
  | [], [] => by simp
  | [], y :: bs => by simp
  | x :: as, [] => by simp
  | x :: as, y :: bs => by
    by_cases hxy : x = y
    · subst hxy
      have ih := list_ne_iff as bs
      constructor
      · intro h
        have has : as ≠ bs := fun he => h (he ▸ rfl)
        rcases ih.mp has with h1 | h2
        · exact Or.inl (by simpa using h1)
        · exact Or.inr (by simp [h2])
      · intro h
        rcases h with h1 | h2
        · have : as.length ≠ bs.length := by simpa using h1
          have has := ih.mpr (Or.inl this)
          intro he
          injection he with _ he
          exact has he
        · simp only [List.zip_cons_cons, List.any_cons, bne_self_eq_false,
            Bool.false_or] at h2
          have has := ih.mpr (Or.inr h2)
          intro he
          injection he with _ he
          exact has he
    · constructor
      · intro _
        exact Or.inr (by simp [List.any_cons, bne_iff_ne, hxy])
      · intro _ he
        injection he with he _
        exact hxy he

lemma detectBreak_eq_nil {rs : List (List String)}
    (h : ∀ r ∈ rs, (r.all (fun v => 0 < v.length)) = false) :
    detectBreak rs = [] := by
  induction rs with
  | nil => rfl
  | cons r rs ih =>
    rw [detectBreak, if_neg (by simp [h r (List.mem_cons_self r rs)])]
    exact ih (fun x hx => h x (List.mem_cons_of_mem r hx))

lemma checkEntries_queryError (header : List String) :
    ∀ (es : List (Except Unit (String × Except Unit (List (List String))))),
    (∀ x ∈ es, ∃ nm rs, x = .ok (nm, .ok rs)) →
    (∃ x ∈ es, ∃ nm rs, x = .ok (nm, .ok rs) ∧ detectBreak rs ≠ header) →
    ∃ msg, checkEntries header es = .error (.QueryError msg) := by
  intro es
  induction es with
  | nil =>
    intro _ hbad
    obtain ⟨x, hx, _⟩ := hbad
    exact absurd hx (List.not_mem_nil x)
  | cons x es ih =>
    intro hread hbad
    obtain ⟨nm, rs, rfl⟩ := hread x (List.mem_cons_self x es)
    by_cases hcond : (detectBreak rs).length ≠ header.length ∨
        (((detectBreak rs).zip header).any (fun ab => ab.1 != ab.2)) = true
    · refine ⟨"Header does not match header in collection", ?_⟩
      simp only [checkEntries]
      rw [if_pos hcond]
    · have hhead : detectBreak rs = header := by
        by_contra hne
        exact hcond ((list_ne_iff (detectBreak rs) header).mp hne)
      have hbad2 : ∃ y ∈ es, ∃ nm2 rs2, y = .ok (nm2, .ok rs2) ∧
          detectBreak rs2 ≠ header := by
        obtain ⟨y, hy, nm2, rs2, hyeq, hne⟩ := hbad
        rcases List.mem_cons.mp hy with hy0 | hy1
        · exfalso
          rw [hy0] at hyeq
          injection hyeq with hyeq
          injection hyeq with _ hyeq
          injection hyeq with hyeq
          exact hne (hyeq ▸ hhead)
        · exact ⟨y, hy1, nm2, rs2, hyeq, hne⟩
      obtain ⟨msg, hmsg⟩ := ih (fun y hy => hread y (List.mem_cons_of_mem _ hy)) hbad2
      refine ⟨msg, ?_⟩
      simp only [checkEntries]
      rw [if_neg hcond]
      exact hmsg

/-- C3: `insert` rejects with `QueryError` — before anything is written,
the model's `.ok` value being the only write — whenever the collection,
filename, or header is empty, some row's length differs from the
header's, or (with the sampled entries readable) some of the first 3
sampled entries of the collection has a detected header different, as
an ordered sequence, from the supplied one. -/
theorem c3_insert_rejects (collection filename : String) (header : List String)
    (rows : List (List String))
    (listing : Except Unit (List (Except Unit (String × Except Unit (List (List String))))))
    (h : (collection = "" ∨ filename = "" ∨ header = [] ∨
          ∃ r ∈ rows, r.length ≠ header.length)
       ∨ (∃ es, listing = .ok es ∧
            (∀ x ∈ es.take 3, ∃ nm rs, x = .ok (nm, .ok rs)) ∧
            ∃ x ∈ es.take 3, ∃ nm rs, x = .ok (nm, .ok rs) ∧ detectBreak rs ≠ header)) :
    ∃ msg, insert collection filename header rows listing = .error (.QueryError msg) := by
  by_cases hempty : collection = "" ∨ filename = "" ∨ header = []
  · exact ⟨_, by rw [insert, if_pos hempty]⟩
  · by_cases hrow : rows.any (fun row => row.length != header.length) = true
    · exact ⟨_, by rw [insert, if_neg hempty, if_pos hrow]⟩
    · have hmain : ∃ es, listing = .ok es ∧
          (∀ x ∈ es.take 3, ∃ nm rs, x = .ok (nm, .ok rs)) ∧
          ∃ x ∈ es.take 3, ∃ nm rs, x = .ok (nm, .ok rs) ∧ detectBreak rs ≠ header := by
        rcases h with h | h
        · exfalso
          rcases h with h | h | h | h
          · exact hempty (Or.inl h)
          · exact hempty (Or.inr (Or.inl h))
          · exact hempty (Or.inr (Or.inr h))
          · obtain ⟨r, hr, hlen⟩ := h
            exact hrow (List.any_eq_true.mpr ⟨r, hr, bne_iff_ne.mpr hlen⟩)
        · exact h
      obtain ⟨es, hes, hread, hbad⟩ := hmain
      obtain ⟨msg, hmsg⟩ := checkEntries_queryError header (es.take 3) hread hbad
      refine ⟨msg, ?_⟩
      rw [insert, if_neg hempty, if_neg hrow, hes]
      simp only [satisfies_collection_header, hmsg]

/-- Witness for C3: a payload with a row longer than its header. -/
theorem c3_insert_rejects_witness :
    ∃ msg, insert "main" "b.csv" ["h"] [["a", "b"]] (.ok []) =
      .error (.QueryError msg) :=
  c3_insert_rejects "main" "b.csv" ["h"] [["a", "b"]] (.ok []) (Or.inl (by decide))

/-- C10: when one of the first 3 sampled entries of the collection is a
readable file none of whose records has all cells nonempty (so its
detected header is the empty sequence) and the others are readable,
`insert` rejects every payload for that collection with `QueryError`:
either the payload fails the emptiness or row-length checks, or its
nonempty header cannot equal the empty detected header. -/
theorem c10_insert_empty_detected_header
    (listing : Except Unit (List (Except Unit (String × Except Unit (List (List String))))))
    (es : List (Except Unit (String × Except Unit (List (List String)))))
    (hl : listing = .ok es)
    (hread : ∀ x ∈ es.take 3, ∃ nm rs, x = .ok (nm, .ok rs))
    (hbad : ∃ x ∈ es.take 3, ∃ nm rs, x = .ok (nm, .ok rs) ∧
        ∀ r ∈ rs, (r.all (fun v => 0 < v.length)) = false) :
    ∀ (collection filename : String) (header : List String) (rows : List (List String)),
    ∃ msg, insert collection filename header rows listing = .error (.QueryError msg) := by
  intro collection filename header rows
  by_cases hempty : collection = "" ∨ filename = "" ∨ header = []
  · exact ⟨_, by rw [insert, if_pos hempty]⟩
  · have hhne : header ≠ [] := fun hh => hempty (Or.inr (Or.inr hh))
    apply c3_insert_rejects
    refine Or.inr ⟨es, hl, hread, ?_⟩
    obtain ⟨x, hx, nm, rs, hxeq, hnone⟩ := hbad
    refine ⟨x, hx, nm, rs, hxeq, ?_⟩
    rw [detectBreak_eq_nil hnone]
    exact fun he => hhne he.symm

/-- Witness for C10: a sampled file whose only record has an empty
cell blocks an otherwise well-formed insert. -/
theorem c10_insert_empty_detected_header_witness :
    ∃ msg, insert "main" "b.csv" ["h"] [] (.ok [.ok ("a.csv", .ok [[""]])]) =
      .error (.QueryError msg) :=
  c10_insert_empty_detected_header (.ok [.ok ("a.csv", .ok [[""]])])
    [.ok ("a.csv", .ok [[""]])] rfl
    (by
      intro x hx
      simp only [List.take, List.mem_singleton] at hx
      exact ⟨"a.csv", [[""]], hx⟩)
    ⟨.ok ("a.csv", .ok [[""]]), by simp [List.take], "a.csv", [[""]], rfl, by decide⟩
    "main" "b.csv" ["h"] []


lemma drop_pat_space (pat v : List Char) :
    (pat ++ ' ' :: v).drop (pat.length + 1) = v := by
  have h : pat ++ ' ' :: v = (pat ++ [' ']) ++ v := by simp
  rw [h, show pat.length + 1 = (pat ++ [' ']).length from by simp, List.drop_left]

lemma take_one_space {s : List Char} {i : Nat} (h : (s.drop i).take 1 = [' ']) :
    s.drop i = ' ' :: s.drop (i + 1) := by
  cases hd : s.drop i with
  | nil => rw [hd] at h; cases h
  | cons c t =>
    rw [hd] at h
    simp only [List.take_succ_cons, List.take_zero] at h
    injection h with h1 _
    subst h1
    have h2 : s.drop (i + 1) = t := by
      have h3 : s.drop (i + 1) = (s.drop i).drop 1 := by
        rw [List.drop_drop, Nat.add_comm]
      rw [h3, hd]
      rfl
    rw [h2]

lemma drop_has {s : String} {rest : List Char} (h : s.data = "HAS ".data ++ rest) :
    s.data.drop 4 = rest := by
  rw [h, show (4 : Nat) = ("HAS ".data).length from rfl, List.drop_left]

lemma isPrefixOf_exists {α : Type} [BEq α] [LawfulBEq α] {l1 l2 : List α} :
    l1.isPrefixOf l2 = true ↔ ∃ t, l1 ++ t = l2 :=
  List.isPrefixOf_iff_prefix

lemma opAtAux_some :
    ∀ {tbl : List (List Char × PredOp)} {rest : List Char} {op : PredOp} {v : List Char},
    opAtAux tbl rest = some (op, v) →
    ∃ pat, (pat, op) ∈ tbl ∧ rest = pat ++ ' ' :: v ∧ v.all (fun c => c ≠ '\n') = true := by
  intro tbl
  induction tbl with
  | nil => intro rest op v h; cases h
  | cons e tl ih =>
    intro rest op v h
    obtain ⟨pat0, op0⟩ := e
    rw [opAtAux] at h
    by_cases hpre : (pat0 ++ [' ']).isPrefixOf rest = true
    · rw [if_pos hpre] at h
      simp only at h
      by_cases hv : (rest.drop (pat0.length + 1)).all (fun c => c ≠ '\n') = true
      · rw [if_pos hv] at h
        injection h with h
        injection h with h1 h2
        subst h1
        subst h2
        obtain ⟨t, ht⟩ := isPrefixOf_exists.mp hpre
        have hteq : rest = pat0 ++ ' ' :: t := by rw [← ht]; simp
        have hdrop : rest.drop (pat0.length + 1) = t := by
          rw [hteq, drop_pat_space]
        refine ⟨pat0, List.mem_cons_self _ _, ?_, hv⟩
        rw [hdrop]
        exact hteq
      · rw [if_neg hv] at h
        obtain ⟨pat, hmem, hrest, hv2⟩ := ih h
        exact ⟨pat, List.mem_cons_of_mem _ hmem, hrest, hv2⟩
    · rw [if_neg hpre] at h
      obtain ⟨pat, hmem, hrest, hv2⟩ := ih h
      exact ⟨pat, List.mem_cons_of_mem _ hmem, hrest, hv2⟩

lemma opAtAux_app :
    ∀ {tbl : List (List Char × PredOp)} {pat : List Char} {op : PredOp} {v : List Char},
    (pat, op) ∈ tbl → v.all (fun c => c ≠ '\n') = true →
    opAtAux tbl (pat ++ ' ' :: v) ≠ none := by
  intro tbl
  induction tbl with
  | nil => intro pat op v hmem _; cases hmem
  | cons e tl ih =>
    intro pat op v hmem hv
    obtain ⟨pat0, op0⟩ := e
    rw [opAtAux]
    by_cases hpre : (pat0 ++ [' ']).isPrefixOf (pat ++ ' ' :: v) = true
    · rw [if_pos hpre]
      simp only
      by_cases hv0 : ((pat ++ ' ' :: v).drop (pat0.length + 1)).all (fun c => c ≠ '\n') = true
      · rw [if_pos hv0]
        exact fun hc => Option.noConfusion hc
      · rw [if_neg hv0]
        rcases List.mem_cons.mp hmem with heq | hmem2
        · exfalso
          injection heq with h1 _
          subst h1
          rw [drop_pat_space] at hv0
          exact hv0 hv
        · exact ih hmem2 hv
    · rcases List.mem_cons.mp hmem with heq | hmem2
      · exfalso
        injection heq with h1 _
        subst h1
        exact hpre (isPrefixOf_exists.mpr ⟨v, by simp⟩)
      · rw [if_neg hpre]
        exact ih hmem2 hv

lemma checkAt_some_sound {s : List Char} {i : Nat} {f : List Char} {op : PredOp}
    {v : List Char} (hi : 1 ≤ i) (h : checkAt s i = some (f, op, v)) :
    f = s.take i ∧ f ≠ [] ∧ f.all (fun c => c ≠ '\n') = true ∧
    ∃ pat, (pat, op) ∈ opTable ∧ v.all (fun c => c ≠ '\n') = true ∧
      s = f ++ ' ' :: pat ++ ' ' :: v := by
  rw [checkAt] at h
  by_cases hsp : (s.drop i).take 1 = [' ']
  · rw [if_pos hsp] at h
    cases hop : opAtAux opTable (s.drop (i + 1)) with
    | none => rw [hop] at h; cases h
    | some r =>
      obtain ⟨op2, v2⟩ := r
      rw [hop] at h
      simp only at h
      by_cases htk : (s.take i).all (fun c => c ≠ '\n') = true
      · rw [if_pos htk] at h
        injection h with h
        injection h with h1 h2
        injection h2 with h2 h3
        subst h1
        subst h2
        subst h3
        obtain ⟨pat, hmem, hrest, hvn⟩ := opAtAux_some hop
        have hdne : s.drop i ≠ [] := by
          intro hnil
          rw [hnil] at hsp
          cases hsp
        have hlt : i < s.length := by
          by_contra hge
          exact hdne (List.drop_eq_nil_of_le (Nat.le_of_not_lt hge))
        have hflen : (s.take i).length = i := by
          rw [List.length_take]
          exact Nat.min_eq_left (Nat.le_of_lt hlt)
        refine ⟨rfl, ?_, htk, pat, hmem, hvn, ?_⟩
        · intro hnil
          rw [hnil] at hflen
          simp at hflen
          omega
        · conv_lhs => rw [← List.take_append_drop i s]
          rw [take_one_space hsp, hrest]
          simp
      · rw [if_neg htk] at h
        cases h
  · rw [if_neg hsp] at h
    cases h

lemma checkAt_app {f pat v : List Char} {op : PredOp} (hmem : (pat, op) ∈ opTable)
    (hf : f.all (fun c => c ≠ '\n') = true) (hv : v.all (fun c => c ≠ '\n') = true) :
    checkAt (f ++ ' ' :: pat ++ ' ' :: v) f.length ≠ none := by
  rw [show f ++ ' ' :: pat ++ ' ' :: v = f ++ (' ' :: (pat ++ ' ' :: v)) from by simp]
  have hdrop : (f ++ (' ' :: (pat ++ ' ' :: v))).drop f.length = ' ' :: (pat ++ ' ' :: v) :=
    List.drop_left f (' ' :: (pat ++ ' ' :: v))
  have htake : (f ++ (' ' :: (pat ++ ' ' :: v))).take f.length = f :=
    List.take_left f (' ' :: (pat ++ ' ' :: v))
  have hdrop1 : (f ++ (' ' :: (pat ++ ' ' :: v))).drop (f.length + 1) = pat ++ ' ' :: v := by
    rw [show f ++ (' ' :: (pat ++ ' ' :: v)) = (f ++ [' ']) ++ (pat ++ ' ' :: v) from by simp,
      show f.length + 1 = (f ++ [' ']).length from by simp, List.drop_left]
  rw [checkAt, hdrop, hdrop1]
  rw [if_pos (by simp)]
  cases hop : opAtAux opTable (pat ++ ' ' :: v) with
  | none => exact absurd hop (opAtAux_app hmem hv)
  | some r =>
    obtain ⟨op2, v2⟩ := r
    simp only [hop]
    rw [htake, if_pos hf]
    exact fun hc => Option.noConfusion hc

lemma findSplit_sound {s : List Char} :
    ∀ {i : Nat} {r}, findSplit s i = some r → ∃ j, 1 ≤ j ∧ checkAt s j = some r := by
  intro i
  induction i with
  | zero => intro r h; cases h
  | succ i ih =>
    intro r h
    rw [findSplit] at h
    cases hc : checkAt s (i + 1) with
    | some r2 =>
      rw [hc] at h
      injection h with h
      exact ⟨i + 1, Nat.succ_le_succ (Nat.zero_le i), h ▸ hc⟩
    | none =>
      rw [hc] at h
      exact ih h

lemma findSplit_app {s : List Char} :
    ∀ (i j : Nat), 1 ≤ j → j ≤ i → checkAt s j ≠ none → findSplit s i ≠ none := by
  intro i
  induction i with
  | zero =>
    intro j h1 h2 _
    exact absurd (Nat.le_trans h1 h2) (by decide)
  | succ i ih =>
    intro j h1 h2 hne
    rw [findSplit]
    cases hc : checkAt s (i + 1) with
    | some r => exact fun hcon => Option.noConfusion hcon
    | none =>
      have hj : j ≤ i := by
        rcases Nat.lt_or_ge j (i + 1) with hlt | hge
        · omega
        · exfalso
          have hji : j = i + 1 := by omega
          exact hne (hji ▸ hc)
      exact ih j h1 hj hne

lemma coreMatch_sound {s : List Char} {f : List Char} {op : PredOp} {v : List Char}
    (h : coreMatch s = some (f, op, v)) :
    f ≠ [] ∧ f.all (fun c => c ≠ '\n') = true ∧
    ∃ pat, (pat, op) ∈ opTable ∧ v.all (fun c => c ≠ '\n') = true ∧
      s = f ++ ' ' :: pat ++ ' ' :: v := by
  obtain ⟨j, hj, hc⟩ := findSplit_sound h
  obtain ⟨_, hfne, hfn, pat, hmem, hvn, heq⟩ := checkAt_some_sound hj hc
  exact ⟨hfne, hfn, pat, hmem, hvn, heq⟩

lemma coreMatch_app {f pat v : List Char} {op : PredOp} (hmem : (pat, op) ∈ opTable)
    (hfne : f ≠ []) (hf : f.all (fun c => c ≠ '\n') = true)
    (hv : v.all (fun c => c ≠ '\n') = true) :
    coreMatch (f ++ ' ' :: pat ++ ' ' :: v) ≠ none := by
  have hlen : (f ++ ' ' :: pat ++ ' ' :: v).length =
      f.length + (pat.length + v.length + 2) := by
    simp [List.length_append]
    omega
  apply findSplit_app ((f ++ ' ' :: pat ++ ' ' :: v).length - 1) f.length
  · exact List.length_pos.mpr hfne
  · omega
  · exact checkAt_app hmem hf hv

lemma coreMatch_ne_none_iff (cs : List Char) : coreMatch cs ≠ none ↔ CoreDecomp cs := by
  constructor
  · intro h
    cases hcm : coreMatch cs with
    | none => exact absurd hcm h
    | some r =>
      obtain ⟨f, op, v⟩ := r
      obtain ⟨hfne, hfn, pat, hmem, hvn, heq⟩ := coreMatch_sound hcm
      exact ⟨f, v, pat, op, hmem, hfne, hfn, hvn, heq⟩
  · intro h
    obtain ⟨f, v, pat, op, hmem, hfne, hfn, hvn, heq⟩ := h
    rw [heq]
    exact coreMatch_app hmem hfne hfn hvn


lemma string_has_split {s : String} (hpre : ("HAS ".data).isPrefixOf s.data = true) :
    s.data = "HAS ".data ++ s.data.drop 4 := by
  obtain ⟨t, ht⟩ := isPrefixOf_exists.mp hpre
  have hd : s.data.drop 4 = t := by
    rw [← ht, show (4 : Nat) = ("HAS ".data).length from rfl, List.drop_left]
  rw [hd]
  exact ht.symm

lemma parsePredicate_ne_none_iff (s : String) :
    parsePredicate s ≠ none ↔ MatchesGrammarStrict s := by
  simp only [parsePredicate]
  by_cases hpre : ("HAS ".data).isPrefixOf s.data = true
  · rw [if_pos hpre]
    cases hcm : coreMatch (s.data.drop 4) with
    | some r =>
      obtain ⟨f, op, v⟩ := r
      constructor
      · intro _
        exact Or.inl ⟨s.data.drop 4, string_has_split hpre,
          (coreMatch_ne_none_iff _).mp (by rw [hcm]; exact fun hc => Option.noConfusion hc)⟩
      · intro _
        simp only [hcm]
        exact fun hc => Option.noConfusion hc
    | none =>
      simp only [hcm]
      constructor
      · intro h
        refine Or.inr ((coreMatch_ne_none_iff s.data).mp ?_)
        intro hc
        rw [hc] at h
        exact h rfl
      · intro hm
        rcases hm with ⟨rest, hrest, hcd⟩ | hcd
        · exfalso
          have h4 := drop_has hrest
          rw [h4] at hcm
          exact (coreMatch_ne_none_iff rest).mpr hcd hcm
        · have hne := (coreMatch_ne_none_iff s.data).mpr hcd
          cases hcm2 : coreMatch s.data with
          | none => exact absurd hcm2 hne
          | some r2 => simp
  · rw [if_neg hpre]
    constructor
    · intro h
      refine Or.inr ((coreMatch_ne_none_iff s.data).mp ?_)
      intro hc
      rw [hc] at h
      exact h rfl
    · intro hm
      rcases hm with ⟨rest, hrest, _⟩ | hcd
      · exact absurd (isPrefixOf_exists.mpr ⟨rest, hrest.symm⟩) hpre
      · have hne := (coreMatch_ne_none_iff s.data).mpr hcd
        cases hcm2 : coreMatch s.data with
        | none => exact absurd hcm2 hne
        | some r2 => simp

lemma parsePredicate_flag_true_iff {s : String}
    {r : Bool × List Char × PredOp × List Char}
    (hr : parsePredicate s = some r) : r.1 = true ↔ HasMarkerDecomp s := by
  simp only [parsePredicate] at hr
  by_cases hpre : ("HAS ".data).isPrefixOf s.data = true
  · rw [if_pos hpre] at hr
    cases hcm : coreMatch (s.data.drop 4) with
    | some r2 =>
      obtain ⟨f, op, v⟩ := r2
      rw [hcm] at hr
      injection hr with hr
      constructor
      · intro _
        refine ⟨s.data.drop 4, string_has_split hpre, (coreMatch_ne_none_iff _).mp ?_⟩
        rw [hcm]
        exact fun hc => Option.noConfusion hc
      · intro _
        rw [← hr]
    | none =>
      rw [hcm] at hr
      cases hcm2 : coreMatch s.data with
      | none =>
        rw [hcm2] at hr
        cases hr
      | some r2 =>
        obtain ⟨f, op, v⟩ := r2
        rw [hcm2] at hr
        simp only [Option.map] at hr
        injection hr with hr
        constructor
        · intro hflag
          rw [← hr] at hflag
          cases hflag
        · intro hm
          exfalso
          obtain ⟨rest, hrest, hcd⟩ := hm
          have h4 := drop_has hrest
          rw [h4] at hcm
          exact (coreMatch_ne_none_iff rest).mpr hcd hcm
  · rw [if_neg hpre] at hr
    cases hcm2 : coreMatch s.data with
    | none =>
      rw [hcm2] at hr
      cases hr
    | some r2 =>
      obtain ⟨f, op, v⟩ := r2
      rw [hcm2] at hr
      simp only [Option.map] at hr
      injection hr with hr
      constructor
      · intro hflag
        rw [← hr] at hflag
        cases hflag
      · intro hm
        exfalso
        obtain ⟨rest, hrest, _⟩ := hm
        exact hpre (isPrefixOf_exists.mpr ⟨rest, hrest.symm⟩)

lemma buildPredicates_ok_parse :
    ∀ {ss : List String} {a b : List Predicate} {pr},
    buildPredicates ss a b = .ok pr → ∀ s ∈ ss, parsePredicate s ≠ none := by
  intro ss
  induction ss with
  | nil =>
    intro a b pr _ s hs
    exact absurd hs (List.not_mem_nil s)
  | cons t rest ih =>
    intro a b pr h s hs
    rw [buildPredicates] at h
    cases hp : parsePredicate t with
    | none =>
      rw [hp] at h
      cases h
    | some r =>
      obtain ⟨flag, f, op, v⟩ := r
      rw [hp] at h
      simp only at h
      rcases List.mem_cons.mp hs with rfl | hs2
      · rw [hp]
        exact fun hc => Option.noConfusion hc
      · cases flag with
        | true =>
          rw [if_pos rfl] at h
          exact ih h s hs2
        | false =>
          rw [if_neg (by simp)] at h
          exact ih h s hs2

lemma DataQuery_new_ok_parse {fields ss : List String} {q : DataQuery}
    (h : DataQuery.new fields ss = .ok q) : ∀ s ∈ ss, parsePredicate s ≠ none := by
  rw [DataQuery.new] at h
  cases hb : buildPredicates ss [] [] with
  | error e =>
    rw [hb] at h
    cases h
  | ok pr => exact buildPredicates_ok_parse hb

/-- C9 (amended): `DataQuery::new` fails — with a `PredicateError`
carrying the offending string — exactly when some input predicate
string does not match the regex grammar `[HAS ]<field> <op> <value>`
with the field and value free of newlines (the regex dot excludes
newlines); when every string matches it returns the structured query.
As a pure function it has no side effects. -/
theorem c9_parser_error_iff (fields ss : List String) :
    ((∃ e, DataQuery.new fields ss = .error e) ↔ ∃ s ∈ ss, ¬ MatchesGrammarStrict s) ∧
    (∀ e, DataQuery.new fields ss = .error e →
      ∃ s ∈ ss, ¬ MatchesGrammarStrict s ∧
        e = .PredicateError ("Incorrect format on predicate " ++ s)) ∧
    ((∀ s ∈ ss, MatchesGrammarStrict s) → ∃ q, DataQuery.new fields ss = .ok q) := by
  have hiff : ∀ s : String, parsePredicate s = none ↔ ¬ MatchesGrammarStrict s := by
    intro s
    constructor
    · intro h hm
      exact (parsePredicate_ne_none_iff s).mpr hm h
    · intro h
      cases hp : parsePredicate s with
      | none => rfl
      | some r =>
        exfalso
        refine h ((parsePredicate_ne_none_iff s).mp ?_)
        rw [hp]
        exact fun hc => Option.noConfusion hc
  refine ⟨⟨?_, ?_⟩, ?_, ?_⟩
  · intro he
    obtain ⟨e, he⟩ := he
    obtain ⟨s, hs, hp, _⟩ := DataQuery_new_error he
    exact ⟨s, hs, (hiff s).mp hp⟩
  · intro hm
    obtain ⟨s, hs, hns⟩ := hm
    cases hq : DataQuery.new fields ss with
    | error e => exact ⟨e, rfl⟩
    | ok q =>
      exact absurd ((hiff s).mpr hns) (DataQuery_new_ok_parse hq s hs)
  · intro e he
    obtain ⟨s, hs, hp, hmsg⟩ := DataQuery_new_error he
    exact ⟨s, hs, (hiff s).mp hp, hmsg⟩
  · intro hall
    apply DataQuery_new_ok
    intro s hs hnone
    exact (hiff s).mp hnone (hall s hs)

/-- Witness for C9: a well-formed predicate list parses to a query. -/
theorem c9_parser_error_iff_witness :
    ∃ q, DataQuery.new [] ["a == b"] = .ok q :=
  (c9_parser_error_iff [] ["a == b"]).2.2 (by
    intro s hs
    rw [List.mem_singleton] at hs
    subst hs
    exact Or.inr ⟨['a'], ['b'], ['=', '='], .EQ, by decide, by decide, by decide,
      by decide, by decide⟩)

/-- Counterexample to C9 as stated: `f == x\ny` matches the naive
grammar `<field> <op> <value>` (value `x\ny`), yet `DataQuery::new`
rejects it with a `PredicateError`, because the regex `.` does not
match the newline in the value. -/
theorem c9_parser_cex :
    MatchesGrammar "f == x\ny" ∧
    DataQuery.new [] ["f == x\ny"] =
      .error (.PredicateError "Incorrect format on predicate f == x\ny") :=
  ⟨Or.inr ⟨['f'], ['x', '\n', 'y'], ['=', '='], .EQ, by decide, by decide, by decide⟩,
   rfl⟩

/-- C5 (amended): a well-formed predicate string is routed into the
filename-predicate set exactly when it consists of the leading marker
`HAS ` followed by a `<field> <op> <value>` match (also when the value
is empty), and into the row-predicate set otherwise; in particular a
`__`-prefixed field name has no routing effect. -/
theorem c5_routing (s : String) (fields : List String) (q : DataQuery)
    (hq : DataQuery.new fields [s] = .ok q) :
    (q.filename_regex_predicates ≠ [] ↔ HasMarkerDecomp s) ∧
    (q.predicates ≠ [] ↔ ¬ HasMarkerDecomp s) := by
  have hp : ∃ r, parsePredicate s = some r := by
    have hne := DataQuery_new_ok_parse hq s (List.mem_singleton.mpr rfl)
    cases hps : parsePredicate s with
    | none => exact absurd hps hne
    | some r => exact ⟨r, rfl⟩
  obtain ⟨⟨flag, f, op, v⟩, hps⟩ := hp
  have hflag := parsePredicate_flag_true_iff hps
  rw [DataQuery.new] at hq
  rw [show buildPredicates [s] [] [] =
      (match parsePredicate s with
       | some (isRegex, f, op, v) =>
         if isRegex then buildPredicates [] [] ([] ++ [⟨⟨f⟩, op, ⟨v⟩⟩])
         else buildPredicates [] ([] ++ [⟨⟨f⟩, op, ⟨v⟩⟩]) []
       | none => .error (.PredicateError ("Incorrect format on predicate " ++ s)))
    from rfl, hps] at hq
  cases flag with
  | true =>
    simp only [if_pos rfl] at hq
    rw [show buildPredicates [] [] ([] ++ [(⟨⟨f⟩, op, ⟨v⟩⟩ : Predicate)]) =
        .ok ([], [⟨⟨f⟩, op, ⟨v⟩⟩]) from rfl] at hq
    injection hq with hq
    subst hq
    have hm : HasMarkerDecomp s := hflag.mp rfl
    refine ⟨⟨fun _ => hm, fun _ => by simp⟩, ⟨fun h => absurd rfl h, fun hnm => absurd hm hnm⟩⟩
  | false =>
    simp only [Bool.false_eq_true, if_neg] at hq
    rw [show buildPredicates [] ([] ++ [(⟨⟨f⟩, op, ⟨v⟩⟩ : Predicate)]) [] =
        .ok ([⟨⟨f⟩, op, ⟨v⟩⟩], []) from rfl] at hq
    injection hq with hq
    subst hq
    have hnm : ¬ HasMarkerDecomp s := by
      intro hm
      exact Bool.noConfusion (hflag.mpr hm)
    refine ⟨⟨fun h => absurd rfl h, fun hm => absurd hm hnm⟩, ⟨fun _ => hnm, fun _ => by simp⟩⟩

/-- Witness for C5: `HAS x == ` (empty comparison value) is routed to
the filename-predicate set. -/
theorem c5_routing_witness :
    (⟨[], [], [⟨"x", .EQ, ""⟩]⟩ : DataQuery).filename_regex_predicates ≠ [] ↔
      HasMarkerDecomp "HAS x == " :=
  (c5_routing "HAS x == " [] ⟨[], [], [⟨"x", .EQ, ""⟩]⟩ rfl).1

/-- Counterexample to C5 as stated: `__a == b` is well formed and its
field name starts with `__`, yet the code routes it into the
row-predicate set and leaves the filename-predicate set empty — only a
leading `HAS ` marker routes a predicate to the filename set. -/
theorem c5_routing_cex :
    MatchesGrammarStrict "__a == b" ∧
    (['_', '_'].isPrefixOf ("__a == b".data)) = true ∧
    DataQuery.new [] ["__a == b"] = .ok ⟨[], [⟨"__a", .EQ, "b"⟩], []⟩ :=
  ⟨Or.inr ⟨['_', '_', 'a'], ['b'], ['=', '='], .EQ, by decide, by decide, by decide,
     by decide, by decide⟩,
   by decide, rfl⟩


end zenithds